import Mathlib

/-!
# Verification of the zkevm worst-case region layouter

Shallow embedding of `zkevm-worst-case.py`: the region data model, the two
layout strategies (`solve_v1`, `solve_v3`), the validator (`check_valid`),
the usage estimator (`get_advice` / `cell_usage`) and the region catalog
(`get_regions`), together with theorems settling the specification claims.

Python integers are embedded as `Int`.  The rows-per-gas ratios, written as
float literals in the source, are embedded as exact rationals (`ℚ`); the
Python float `9.47` denotes the same decimal `947/100` up to binary rounding,
which never matters for the properties proved here.  `int(...)` truncation
toward zero is `truncToInt`.  Fallible operations (Python's `ZeroDivisionError`)
are embedded with `Option`.
-/

/-- `Region` dataclass from the source: a named rectangle of advice columns
(`width`) times rows (`height`), with placement coordinates `x`, `y` that
default to the unplaced sentinel `-1`.  The `name` field holds the circuit
name, which is `None` in the source for table-only pairs, hence `Option`. -/
structure Region where
  name : Option String
  width : Int
  height : Int
  x : Int := -1
  y : Int := -1
deriving DecidableEq, Repr

/-- `Region.overlap` exactly as in the source (lines 171-173): an asymmetric
corner-containment test that checks whether `other`'s top-left corner lies
inside `self`'s box. -/
def Region.overlap (self other : Region) : Bool :=
  (decide (self.x ≤ other.x) && decide (self.x + self.width > other.x)) &&
  (decide (self.y ≤ other.y) && decide (self.y + self.height > other.y))

/-- The symmetric rectangle-intersection test named by the specification:
two axis-aligned half-open boxes `[x, x+width) × [y, y+height)` intersect iff
`max(x1,x2) < min(x1+w1, x2+w2)` and similarly for `y`.  This is the
geometric truth the validator is claimed to decide. -/
def boxesIntersect (a b : Region) : Bool :=
  decide (max a.x b.x < min (a.x + a.width) (b.x + b.width)) &&
  decide (max a.y b.y < min (a.y + a.height) (b.y + b.height))

/-- `solve_v1` placement loop: regions in a single row, each at `y = 0` and
`x` equal to the cumulative width of its predecessors. -/
def placeV1 : Int → List Region → List Region
  | _, [] => []
  | width, r :: rest => { r with x := width, y := 0 } :: placeV1 (width + r.width) rest

/-- `solve_v1`: the Halo2 baseline layouter.  The source's trailing
`check_valid` call only prints a warning and does not change the returned
regions, so it is not part of the embedded value.  `k` is unused by the
placement itself. -/
def solve_v1 (_k : Nat) (regions : List Region) : List Region :=
  placeV1 0 regions

/-- One insertion step of the stable descending-by-height sort: walk past
strictly taller elements and insert before the first element that is not
taller, so that equal-height elements keep their original relative order. -/
def insertByHeight (r : Region) : List Region → List Region
  | [] => [r]
  | s :: rest => if r.height < s.height then s :: insertByHeight r rest else r :: s :: rest

/-- Embedding of `sorted(regions, key=lambda r: -r.height)`: Python's
`sorted` is a stable sort by the key, and a stable sort is uniquely
determined by its output order, so this stable insertion sort is
extensionally the same function.  The lemmas `sortRegions_perm`,
`sortRegions_sortedDesc` and the stability theorem below establish exactly
that characterisation. -/
def sortRegions : List Region → List Region
  | [] => []
  | r :: rest => insertByHeight r (sortRegions rest)

/-- The `solve_v3` placement loop over the sorted regions.  The mutable
`position` cursor and the running shelf `width` of the source become the
arguments `px`, `py`, `w`. -/
def v3Loop (n : Int) : Int → Int → Int → List Region → List Region
  | _, _, _, [] => []
  | px, py, w, r :: rest =>
    if py + r.height < n then
      { r with x := px, y := py } ::
        v3Loop n px (py + r.height) (if w < r.width then r.width else w) rest
    else
      { r with x := px + w, y := 0 } ::
        v3Loop n (px + w) r.height r.width rest

/-- `solve_v3`: the shelf layouter.  Sorts by descending height (stably),
then packs greedily; `n = 2^k`.  As with `solve_v1`, the trailing
`check_valid` call only prints. -/
def solve_v3 (k : Nat) (regions : List Region) : List Region :=
  v3Loop ((2 : Int) ^ k) 0 0 0 (sortRegions regions)

/-- A diagnostic message printed by `check_valid`: either a region over the
`2^k` height bound or a pair of overlapping regions. -/
inductive Diag where
  | heightOver : Region → Diag
  | overlapping : Region → Region → Diag
deriving DecidableEq, Repr

/-- The nested `i < j` pair scan of `check_valid`: the first pair
`(regions[i], regions[j])` with `i < j` for which `regions[i].overlap
(regions[j])` holds, in the loop's lexicographic order. -/
def findOverlapPair : List Region → Option (Region × Region)
  | [] => none
  | r :: rest =>
    match rest.find? (fun s => r.overlap s) with
    | some s => some (r, s)
    | none => findOverlapPair rest

/-- `check_valid` with its printed diagnostics made explicit: the source
returns `False` right after printing the first height violation, else right
after printing the first overlapping pair, else returns `True` having
printed nothing. -/
def checkValidDiag (k : Nat) (regions : List Region) : Bool × List Diag :=
  match regions.find? (fun r => decide (r.y + r.height > (2 : Int) ^ k)) with
  | some r => (false, [Diag.heightOver r])
  | none =>
    match findOverlapPair regions with
    | some (r, s) => (false, [Diag.overlapping r s])
    | none => (true, [])

/-- The boolean value returned by `check_valid`. -/
def check_valid (k : Nat) (regions : List Region) : Bool :=
  (checkValidDiag k regions).fst

/-- One fold step of `get_advice`: `if max_col > advice: advice = max_col`. -/
def advStep (advice : Int) (r : Region) : Int :=
  if r.x + r.width > advice then r.x + r.width else advice

/-- `get_advice`: the total number of advice columns required, i.e. the
running maximum of `region.x + region.width` starting from `0`. -/
def get_advice (regions : List Region) : Int :=
  regions.foldl advStep 0

/-- `cell_usage`: returns `(area, used_cells)` where
`area = get_advice(regions) * 2^k` and `used_cells` sums `width * height`. -/
def cell_usage (k : Nat) (regions : List Region) : Int × Int :=
  (get_advice regions * (2 : Int) ^ k,
   regions.foldl (fun acc r => acc + r.width * r.height) 0)

/-- Python's `a / b` on integers: true division, raising
`ZeroDivisionError` when `b = 0`; the failure is embedded as `none`. -/
def pyDiv (a b : Int) : Option ℚ :=
  if b = 0 then none else some ((a : ℚ) / (b : ℚ))

/-- The utilization ratio as computed in `main` (line 388):
`used_cells / area` on the result of `cell_usage`. -/
def utilization (k : Nat) (regions : List Region) : Option ℚ :=
  pyDiv (cell_usage k regions).snd (cell_usage k regions).fst

/-- The `circuits_tables` configuration list, in source order. -/
def circuits_tables : List (Option String × Option String) :=
  [ (some "evm", none),
    (some "bytecode", some "bytecode"),
    (some "copy", some "copy"),
    (some "exp", some "exp"),
    (some "keccak", some "keccak"),
    (some "mpt", some "mpt"),
    (some "rw", some "rw"),
    (some "tx", some "tx"),
    (some "sig", some "sig"),
    (some "ecc", none),
    (some "pi", none),
    (none, some "block"),
    (none, some "u8"),
    (none, some "u10"),
    (none, some "u16") ]

/-- The `rows_per_gas` dict.  `None` entries (`ecc`, `sig`) are `none`; the
float literals are embedded as the exact decimals they denote, e.g. the
source's `9.47` is `mkRat 947 100`.  Keys outside the dict would raise
`KeyError` in the source and are never looked up; they map to `none` here. -/
def rows_per_gas : String → Option ℚ
  | "evm" => some (mkRat 9 2)
  | "bytecode" => some (mkRat 947 100)
  | "copy" => some (mkRat 213 10)
  | "exp" => some (mkRat 109 100)
  | "keccak" => some (mkRat 181 2)
  | "mpt" => some (mkRat 19 20)
  | "rw" => some (mkRat 1133 100)
  | "tx" => some (mkRat 873 100)
  | "ecc" => none
  | "pi" => some (mkRat 33 100)
  | "block" => some 0
  | "sig" => none
  | "u8" => some 0
  | "u10" => some 0
  | "u16" => some 0
  | _ => none

/-- The `min_rows` dict; lookup of an absent key raises `KeyError`, which the
source catches and ignores, so the embedding returns `none` there. -/
def min_rows : String → Option Int
  | "tx" => some 295188
  | "block" => some 264
  | "u8" => some (2 ^ 8)
  | "u10" => some (2 ^ 10)
  | "u16" => some (2 ^ 16)
  | _ => none

/-- The `adv_cols` dict.  Every key looked up by the embedded code is present
in the dict; the catch-all `0` stands for the source's `KeyError`, which
never fires. -/
def adv_cols : String → Int
  | "tx_table" => 4
  | "wd_table" => 5
  | "rw_table" => 14
  | "mpt_table" => 12
  | "bytecode_table" => 6
  | "block_table" => 2
  | "copy_table" => 12
  | "exp_table" => 5
  | "keccak_table" => 5
  | "sig_table" => 9
  | "u8_table" => 0
  | "u10_table" => 0
  | "u16_table" => 0
  | "keccak" => 198
  | "pi" => 10
  | "tx" => 6
  | "bytecode" => 6
  | "copy" => 14
  | "rw" => 49
  | "exp" => 10
  | "evm" => 131
  | "mpt" => 144
  | "ecc" => 0
  | "sig" => 0
  | _ => 0

/-- Python's `int(q)`: truncation toward zero; on a normalised rational this
is truncating division of numerator by denominator. -/
def truncToInt (q : ℚ) : Int :=
  q.num.tdiv (q.den : Int)

/-- The body of `get_regions`'s `for` loop over `circuits_tables`.  The
`if not rows_gas: continue` test skips both a `None` ratio and a `0` ratio
(Python falsiness).  Note the emitted `Region` carries `circuit` (possibly
`None`) as its name, not the local `name` used for the lookups.  The
source's `if circuit:`/`if table:` truthiness tests are `isSome` here: no
configured name is the empty string. -/
def buildRegions (gas : ℚ) : List (Option String × Option String) → List Region
  | [] => []
  | (circuit, table) :: rest =>
    let width : Int :=
      (match circuit with | some c => adv_cols c | none => 0) +
      (match table with | some t => adv_cols (t ++ "_table") | none => 0)
    let name : Option String := match circuit with | some _ => circuit | none => table
    match name.bind rows_per_gas with
    | none => buildRegions gas rest
    | some rows_gas =>
      if rows_gas = 0 then buildRegions gas rest
      else
        let rows : Int := truncToInt (gas * rows_gas)
        let rows : Int :=
          match name.bind min_rows with
          | some m => max rows m
          | none => rows
        ⟨circuit, width, rows, -1, -1⟩ :: buildRegions gas rest

/-- `get_regions`: the region catalog for a given gas budget. -/
def get_regions (gas : ℚ) : List Region :=
  buildRegions gas circuits_tables

/-- The unplaced payload of a region (everything except the coordinates the
layouters assign). -/
def coreOf (r : Region) : Option String × Int × Int :=
  (r.name, r.width, r.height)

/-- Sum of the widths of a region list. -/
def sumWidths (regions : List Region) : Int :=
  (regions.map (fun r => r.width)).sum

/-! ## Characterisation of the stable sort -/

lemma insertByHeight_perm (r : Region) (l : List Region) :
    (insertByHeight r l).Perm (r :: l) := by
  induction l with
  | nil => simp [insertByHeight]
  | cons s rest ih =>
    simp only [insertByHeight]
    by_cases h : r.height < s.height
    · rw [if_pos h]
      exact (ih.cons s).trans (List.Perm.swap r s rest)
    · rw [if_neg h]

lemma sortRegions_perm (l : List Region) : (sortRegions l).Perm l := by
  induction l with
  | nil => simp [sortRegions]
  | cons r rest ih =>
    exact (insertByHeight_perm r (sortRegions rest)).trans (ih.cons r)

lemma insertByHeight_sorted (r : Region) (l : List Region)
    (h : l.Pairwise (fun a b => b.height ≤ a.height)) :
    (insertByHeight r l).Pairwise (fun a b => b.height ≤ a.height) := by
  induction l with
  | nil => simp [insertByHeight]
  | cons s rest ih =>
    rcases List.pairwise_cons.mp h with ⟨hs, hrest⟩
    simp only [insertByHeight]
    by_cases hlt : r.height < s.height
    · rw [if_pos hlt]
      refine List.pairwise_cons.mpr ⟨?_, ih hrest⟩
      intro t ht
      rcases List.mem_cons.mp ((insertByHeight_perm r rest).mem_iff.mp ht) with rfl | htr
      · exact le_of_lt hlt
      · exact hs t htr
    · rw [if_neg hlt]
      refine List.pairwise_cons.mpr ⟨?_, h⟩
      intro t ht
      rcases List.mem_cons.mp ht with rfl | htr
      · exact not_lt.mp hlt
      · exact le_trans (hs t htr) (not_lt.mp hlt)

lemma sortRegions_sortedDesc (l : List Region) :
    (sortRegions l).Pairwise (fun a b => b.height ≤ a.height) := by
  induction l with
  | nil => simp [sortRegions]
  | cons r rest ih => exact insertByHeight_sorted r (sortRegions rest) ih

lemma filter_insertByHeight_of_eq (r : Region) (l : List Region) (h : Int)
    (hr : r.height = h) :
    (insertByHeight r l).filter (fun s => decide (s.height = h)) =
      r :: l.filter (fun s => decide (s.height = h)) := by
  induction l with
  | nil => simp [insertByHeight, hr]
  | cons s rest ih =>
    simp only [insertByHeight]
    by_cases hlt : r.height < s.height
    · rw [if_pos hlt]
      have hs : ¬ (s.height = h) := by omega
      simp [List.filter_cons, hs, ih]
    · rw [if_neg hlt]
      simp [List.filter_cons, hr]

lemma filter_insertByHeight_of_ne (r : Region) (l : List Region) (h : Int)
    (hr : ¬ (r.height = h)) :
    (insertByHeight r l).filter (fun s => decide (s.height = h)) =
      l.filter (fun s => decide (s.height = h)) := by
  induction l with
  | nil => simp [insertByHeight, hr]
  | cons s rest ih =>
    simp only [insertByHeight]
    by_cases hlt : r.height < s.height
    · rw [if_pos hlt]
      simp [List.filter_cons, ih]
    · rw [if_neg hlt]
      simp [List.filter_cons, hr]

/-- C7: ShelfLayout's descending-height sort is stable: for every input
sequence and every height value, the subsequence of regions having that
height is preserved verbatim by the sort, i.e. any two regions of equal
height keep the relative order they had in the catalog input. -/
theorem sortRegions_stable (l : List Region) (h : Int) :
    (sortRegions l).filter (fun s => decide (s.height = h)) =
      l.filter (fun s => decide (s.height = h)) := by
  induction l with
  | nil => simp [sortRegions]
  | cons r rest ih =>
    simp only [sortRegions]
    by_cases hr : r.height = h
    · rw [filter_insertByHeight_of_eq r (sortRegions rest) h hr, ih,
        List.filter_cons_of_pos (by simpa using hr)]
    · rw [filter_insertByHeight_of_ne r (sortRegions rest) h hr, ih,
        List.filter_cons_of_neg (by simpa using hr)]

/-! ## Basic facts about `get_advice` and the fold sums -/

lemma advStep_ge_init (a : Int) (r : Region) : a ≤ advStep a r := by
  unfold advStep; split <;> omega

lemma advStep_ge_mem (a : Int) (r : Region) : r.x + r.width ≤ advStep a r := by
  unfold advStep; split <;> omega

lemma foldl_advStep_ge_init (l : List Region) : ∀ a : Int, a ≤ l.foldl advStep a := by
  induction l with
  | nil => intro a; exact le_refl a
  | cons r rest ih =>
    intro a
    exact le_trans (advStep_ge_init a r) (ih (advStep a r))

lemma foldl_advStep_ge_mem (l : List Region) :
    ∀ a : Int, ∀ r ∈ l, r.x + r.width ≤ l.foldl advStep a := by
  induction l with
  | nil => intro a r hr; cases hr
  | cons s rest ih =>
    intro a r hr
    rcases List.mem_cons.mp hr with rfl | h
    · exact le_trans (advStep_ge_mem a r) (foldl_advStep_ge_init rest (advStep a r))
    · exact ih (advStep a s) r h

lemma foldl_advStep_le (l : List Region) :
    ∀ a c : Int, a ≤ c → (∀ r ∈ l, r.x + r.width ≤ c) → l.foldl advStep a ≤ c := by
  induction l with
  | nil => intro a c h _; exact h
  | cons s rest ih =>
    intro a c hac hall
    refine ih (advStep a s) c ?_ (fun r hr => hall r (List.mem_cons_of_mem s hr))
    have hs := hall s (List.mem_cons_self s rest)
    unfold advStep; split <;> omega

lemma foldl_advStep_attained (l : List Region) :
    ∀ a : Int, l.foldl advStep a = a ∨ ∃ r ∈ l, l.foldl advStep a = r.x + r.width := by
  induction l with
  | nil => intro a; exact Or.inl rfl
  | cons s rest ih =>
    intro a
    simp only [List.foldl_cons]
    by_cases hc : s.x + s.width > a
    · have ha : advStep a s = s.x + s.width := if_pos hc
      rcases ih (advStep a s) with h | ⟨r, hr, h⟩
      · exact Or.inr ⟨s, List.mem_cons_self s rest, by rw [h, ha]⟩
      · exact Or.inr ⟨r, List.mem_cons_of_mem s hr, h⟩
    · have ha : advStep a s = a := if_neg hc
      rcases ih (advStep a s) with h | ⟨r, hr, h⟩
      · exact Or.inl (by rw [h, ha])
      · exact Or.inr ⟨r, List.mem_cons_of_mem s hr, h⟩

lemma foldl_cells (l : List Region) :
    ∀ a : Int, l.foldl (fun acc r => acc + r.width * r.height) a =
      a + (l.map (fun r => r.width * r.height)).sum := by
  induction l with
  | nil => intro a; simp
  | cons s rest ih =>
    intro a
    simp only [List.foldl_cons, List.map_cons, List.sum_cons, ih]
    ring

lemma sumWidths_nonneg (l : List Region) (h : ∀ r ∈ l, 0 ≤ r.width) : 0 ≤ sumWidths l := by
  induction l with
  | nil => simp [sumWidths]
  | cons s rest ih =>
    have hs := h s (List.mem_cons_self s rest)
    have := ih (fun r hr => h r (List.mem_cons_of_mem s hr))
    simp only [sumWidths, List.map_cons, List.sum_cons] at *
    omega

/-! ## Non-intersection helpers -/

lemma boxesIntersect_eq_false_right (a b : Region) (h : a.x + a.width ≤ b.x) :
    boxesIntersect a b = false := by
  simp only [boxesIntersect, Bool.and_eq_false_iff, decide_eq_false_iff_not, not_lt]
  omega

lemma boxesIntersect_eq_false_above (a b : Region) (h : a.y + a.height ≤ b.y) :
    boxesIntersect a b = false := by
  simp only [boxesIntersect, Bool.and_eq_false_iff, decide_eq_false_iff_not, not_lt]
  omega

/-! ## Properties of the v1 placement -/

lemma placeV1_props (l : List Region) :
    ∀ acc : Int, (∀ r ∈ l, 0 ≤ r.width) →
      (∀ r ∈ placeV1 acc l, r.y = 0 ∧ acc ≤ r.x) ∧
      (placeV1 acc l).Pairwise (fun a b => boxesIntersect a b = false) ∧
      (placeV1 acc l).map coreOf = l.map coreOf := by
  induction l with
  | nil => intro acc _; exact ⟨fun r hr => absurd hr (List.not_mem_nil r), List.Pairwise.nil, rfl⟩
  | cons s rest ih =>
    intro acc hw
    have hws := hw s (List.mem_cons_self s rest)
    obtain ⟨ihmem, ihpw, ihmap⟩ :=
      ih (acc + s.width) (fun r hr => hw r (List.mem_cons_of_mem s hr))
    simp only [placeV1]
    refine ⟨?_, ?_, ?_⟩
    · intro r hr
      rcases List.mem_cons.mp hr with rfl | h
      · exact ⟨rfl, by simp⟩
      · obtain ⟨hy, hx⟩ := ihmem r h
        exact ⟨hy, by omega⟩
    · refine List.pairwise_cons.mpr ⟨?_, ihpw⟩
      intro t ht
      obtain ⟨_, hx⟩ := ihmem t ht
      exact boxesIntersect_eq_false_right _ t (by simpa using hx)
    · simp only [List.map_cons, ihmap, coreOf]

/-! ## Properties of the v3 shelf placement -/

lemma v3Loop_props (n : Int) (l : List Region) :
    ∀ px py w : Int,
      (∀ r ∈ l, 0 < r.width ∧ 0 < r.height ∧ r.height ≤ n) →
      0 ≤ px → 0 ≤ py → 0 ≤ w →
      (∀ r ∈ v3Loop n px py w l, 0 ≤ r.x ∧ 0 ≤ r.y ∧ r.y + r.height ≤ n) ∧
      (∀ r ∈ v3Loop n px py w l, (r.x = px ∧ py ≤ r.y) ∨ px + w ≤ r.x) ∧
      (v3Loop n px py w l).Pairwise (fun a b => boxesIntersect a b = false) ∧
      (v3Loop n px py w l).map coreOf = l.map coreOf := by
  induction l with
  | nil =>
    intro px py w _ _ _ _
    exact ⟨fun r hr => absurd hr (List.not_mem_nil r), fun r hr => absurd hr (List.not_mem_nil r),
      List.Pairwise.nil, rfl⟩
  | cons r rest ih =>
    intro px py w hl hpx hpy hw
    obtain ⟨hrw, hrh, hrn⟩ := hl r (List.mem_cons_self r rest)
    have hl' : ∀ s ∈ rest, 0 < s.width ∧ 0 < s.height ∧ s.height ≤ n :=
      fun s hs => hl s (List.mem_cons_of_mem r hs)
    by_cases hfit : py + r.height < n
    · -- the region fits below the previous one on the current shelf
      have hv3 : v3Loop n px py w (r :: rest) =
          { r with x := px, y := py } ::
            v3Loop n px (py + r.height) (if w < r.width then r.width else w) rest := by
        simp only [v3Loop, if_pos hfit]
      set w2 : Int := if w < r.width then r.width else w with hw2def
      have hww2 : w ≤ w2 := by rw [hw2def]; split <;> omega
      have hrw2 : r.width ≤ w2 := by rw [hw2def]; split <;> omega
      have hw20 : 0 ≤ w2 := le_trans hw hww2
      obtain ⟨ihb, ihinv, ihpw, ihmap⟩ :=
        ih px (py + r.height) w2 hl' hpx (by omega) hw20
      rw [hv3]
      refine ⟨?_, ?_, ?_, ?_⟩
      · intro t ht
        rcases List.mem_cons.mp ht with rfl | h
        · refine ⟨by simpa using hpx, by simpa using hpy, ?_⟩
          simpa using le_of_lt hfit
        · exact ihb t h
      · intro t ht
        rcases List.mem_cons.mp ht with rfl | h
        · exact Or.inl ⟨by simp, by simp⟩
        · rcases ihinv t h with ⟨hx, hy⟩ | hxr
          · exact Or.inl ⟨hx, by omega⟩
          · exact Or.inr (by omega)
      · refine List.pairwise_cons.mpr ⟨?_, ihpw⟩
        intro t ht
        rcases ihinv t ht with ⟨hx, hy⟩ | hxr
        · exact boxesIntersect_eq_false_above _ t (by simpa using hy)
        · exact boxesIntersect_eq_false_right _ t (by simp; omega)
      · simp only [List.map_cons, ihmap, coreOf]
    · -- start a new shelf to the right
      have hv3 : v3Loop n px py w (r :: rest) =
          { r with x := px + w, y := 0 } ::
            v3Loop n (px + w) r.height r.width rest := by
        simp only [v3Loop, if_neg hfit]
      obtain ⟨ihb, ihinv, ihpw, ihmap⟩ :=
        ih (px + w) r.height r.width hl' (by omega) (by omega) (by omega)
      rw [hv3]
      refine ⟨?_, ?_, ?_, ?_⟩
      · intro t ht
        rcases List.mem_cons.mp ht with rfl | h
        · exact ⟨by simp; omega, by simp, by simpa using hrn⟩
        · exact ihb t h
      · intro t ht
        rcases List.mem_cons.mp ht with rfl | h
        · exact Or.inr (by simp)
        · rcases ihinv t h with ⟨hx, hy⟩ | hxr
          · exact Or.inr (by omega)
          · exact Or.inr (by omega)
      · refine List.pairwise_cons.mpr ⟨?_, ihpw⟩
        intro t ht
        rcases ihinv t ht with ⟨hx, hy⟩ | hxr
        · exact boxesIntersect_eq_false_above _ t (by simpa using hy)
        · exact boxesIntersect_eq_false_right _ t (by simp; omega)
      · simp only [List.map_cons, ihmap, coreOf]

/-! ## Claim C1: the overlap check versus true rectangle intersection -/

/-- C1: the validator's overlap check is NOT the symmetric rectangle
intersection test.  Concretely, the boxes `[1,2) × [0,1)` and `[0,2) × [0,1)`
genuinely intersect, but `overlap` in the order `check_valid` tests them
returns `false` (it only asks whether the second box's corner lies in the
first), so `check_valid` declares the placement valid; swapping the
arguments returns `true`, so the test is not symmetric either. -/
theorem overlap_check_misses_true_intersection :
    boxesIntersect ⟨some "a", 1, 1, 1, 0⟩ ⟨some "b", 2, 1, 0, 0⟩ = true ∧
    Region.overlap ⟨some "a", 1, 1, 1, 0⟩ ⟨some "b", 2, 1, 0, 0⟩ = false ∧
    Region.overlap ⟨some "b", 2, 1, 0, 0⟩ ⟨some "a", 1, 1, 1, 0⟩ = true ∧
    check_valid 3 [⟨some "a", 1, 1, 1, 0⟩, ⟨some "b", 2, 1, 0, 0⟩] = true := by
  decide

/-! ## Claim C2: both layouters place within bounds and without intersection -/

/-- C2: for every table-height exponent `k` and every region sequence with
positive widths and heights at most `2^k`, both `solve_v1` and `solve_v3`
place every region at `x ≥ 0`, `y ≥ 0` with `y + height ≤ 2^k`, no two
placed boxes truly intersect, and the placement is exactly the input
regions (v1 in order, v3 up to the sort's permutation). -/
theorem layouters_place_within_bounds_without_intersection
    (k : Nat) (regions : List Region)
    (h : ∀ r ∈ regions, 0 < r.width ∧ 0 < r.height ∧ r.height ≤ (2 : Int) ^ k) :
    (∀ r ∈ solve_v1 k regions, 0 ≤ r.x ∧ 0 ≤ r.y ∧ r.y + r.height ≤ (2 : Int) ^ k) ∧
    (solve_v1 k regions).Pairwise (fun a b => boxesIntersect a b = false) ∧
    (∀ r ∈ solve_v3 k regions, 0 ≤ r.x ∧ 0 ≤ r.y ∧ r.y + r.height ≤ (2 : Int) ^ k) ∧
    (solve_v3 k regions).Pairwise (fun a b => boxesIntersect a b = false) ∧
    (solve_v1 k regions).map coreOf = regions.map coreOf ∧
    ((solve_v3 k regions).map coreOf).Perm (regions.map coreOf) := by
  have hw : ∀ r ∈ regions, 0 ≤ r.width := fun r hr => le_of_lt (h r hr).1
  obtain ⟨hmem1, hpw1, hmap1⟩ := placeV1_props regions 0 hw
  have hsortmem : ∀ r ∈ sortRegions regions,
      0 < r.width ∧ 0 < r.height ∧ r.height ≤ (2 : Int) ^ k :=
    fun r hr => h r ((sortRegions_perm regions).mem_iff.mp hr)
  obtain ⟨ihb, _, ihpw, ihmap⟩ :=
    v3Loop_props ((2 : Int) ^ k) (sortRegions regions) 0 0 0 hsortmem
      (le_refl 0) (le_refl 0) (le_refl 0)
  refine ⟨?_, hpw1, ihb, ihpw, hmap1, ?_⟩
  · intro r hr
    obtain ⟨hy, hx⟩ := hmem1 r hr
    have hmm : coreOf r ∈ (placeV1 0 regions).map coreOf := List.mem_map_of_mem coreOf hr
    rw [hmap1] at hmm
    obtain ⟨s, hs, hcs⟩ := List.mem_map.mp hmm
    have hh : s.height = r.height := congrArg (fun p => p.2.2) hcs
    have := (h s hs).2.2
    exact ⟨hx, le_of_eq hy.symm, by omega⟩
  · simp only [solve_v3]
    rw [ihmap]
    exact (sortRegions_perm regions).map coreOf

/-- Witness for C2 at `k = 3` with three concrete regions, one of which has
height exactly `2^3`. -/
theorem layouters_place_witness :
    (∀ r ∈ solve_v1 3 [⟨some "w1", 2, 8, -1, -1⟩, ⟨some "w2", 3, 5, -1, -1⟩,
        ⟨some "w3", 1, 3, -1, -1⟩], 0 ≤ r.x ∧ 0 ≤ r.y ∧ r.y + r.height ≤ (2 : Int) ^ 3) ∧
    (solve_v1 3 [⟨some "w1", 2, 8, -1, -1⟩, ⟨some "w2", 3, 5, -1, -1⟩,
        ⟨some "w3", 1, 3, -1, -1⟩]).Pairwise (fun a b => boxesIntersect a b = false) ∧
    (∀ r ∈ solve_v3 3 [⟨some "w1", 2, 8, -1, -1⟩, ⟨some "w2", 3, 5, -1, -1⟩,
        ⟨some "w3", 1, 3, -1, -1⟩], 0 ≤ r.x ∧ 0 ≤ r.y ∧ r.y + r.height ≤ (2 : Int) ^ 3) ∧
    (solve_v3 3 [⟨some "w1", 2, 8, -1, -1⟩, ⟨some "w2", 3, 5, -1, -1⟩,
        ⟨some "w3", 1, 3, -1, -1⟩]).Pairwise (fun a b => boxesIntersect a b = false) ∧
    (solve_v1 3 [⟨some "w1", 2, 8, -1, -1⟩, ⟨some "w2", 3, 5, -1, -1⟩,
        ⟨some "w3", 1, 3, -1, -1⟩]).map coreOf =
      [⟨some "w1", 2, 8, -1, -1⟩, ⟨some "w2", 3, 5, -1, -1⟩,
        ⟨some "w3", 1, 3, -1, -1⟩].map coreOf ∧
    ((solve_v3 3 [⟨some "w1", 2, 8, -1, -1⟩, ⟨some "w2", 3, 5, -1, -1⟩,
        ⟨some "w3", 1, 3, -1, -1⟩]).map coreOf).Perm
      ([⟨some "w1", 2, 8, -1, -1⟩, ⟨some "w2", 3, 5, -1, -1⟩,
        ⟨some "w3", 1, 3, -1, -1⟩].map coreOf) :=
  layouters_place_within_bounds_without_intersection 3
    [⟨some "w1", 2, 8, -1, -1⟩, ⟨some "w2", 3, 5, -1, -1⟩, ⟨some "w3", 1, 3, -1, -1⟩]
    (by decide)

/-! ## Claim C5: ShelfLayout never occupies more width than NaiveLayout -/

lemma v3Loop_width_le (n : Int) (l : List Region) :
    ∀ px py w : Int, (∀ r ∈ l, 0 ≤ r.width) → 0 ≤ w →
      ∀ r ∈ v3Loop n px py w l, r.x + r.width ≤ px + w + sumWidths l := by
  induction l with
  | nil => intro px py w _ _ r hr; cases hr
  | cons s rest ih =>
    intro px py w hl hw r hr
    have hsw := hl s (List.mem_cons_self s rest)
    have hl' : ∀ t ∈ rest, 0 ≤ t.width := fun t ht => hl t (List.mem_cons_of_mem s ht)
    have hsum : 0 ≤ sumWidths rest := sumWidths_nonneg rest hl'
    have hcons : sumWidths (s :: rest) = s.width + sumWidths rest := by
      simp [sumWidths]
    by_cases hfit : py + s.height < n
    · rw [show v3Loop n px py w (s :: rest) =
          { s with x := px, y := py } ::
            v3Loop n px (py + s.height) (if w < s.width then s.width else w) rest from by
        simp only [v3Loop, if_pos hfit]] at hr
      have hw'le : (if w < s.width then s.width else w) ≤ w + s.width := by split <;> omega
      have hw'0 : 0 ≤ (if w < s.width then s.width else w) := by split <;> omega
      rcases List.mem_cons.mp hr with rfl | hmem
      · simp only [hcons]; simp; omega
      · have := ih px (py + s.height) (if w < s.width then s.width else w) hl' hw'0 r hmem
        omega
    · rw [show v3Loop n px py w (s :: rest) =
          { s with x := px + w, y := 0 } ::
            v3Loop n (px + w) s.height s.width rest from by
        simp only [v3Loop, if_neg hfit]] at hr
      rcases List.mem_cons.mp hr with rfl | hmem
      · simp only [hcons]; simp; omega
      · have := ih (px + w) s.height s.width hl' hsw r hmem
        omega

lemma placeV1_attains_sum (l : List Region) :
    ∀ acc : Int, l ≠ [] → ∃ r ∈ placeV1 acc l, r.x + r.width = acc + sumWidths l := by
  induction l with
  | nil => intro acc hne; exact absurd rfl hne
  | cons s rest ih =>
    intro acc _
    by_cases hrest : rest = []
    · subst hrest
      refine ⟨{ s with x := acc, y := 0 }, List.mem_cons_self _ _, ?_⟩
      simp [sumWidths]
    · obtain ⟨r, hr, hval⟩ := ih (acc + s.width) hrest
      refine ⟨r, List.mem_cons_of_mem _ hr, ?_⟩
      have hcons : sumWidths (s :: rest) = s.width + sumWidths rest := by
        simp [sumWidths]
      omega

/-- C5: for every region sequence (positive dimensions per the data model,
heights at most `2^k`), the total occupied advice width of the ShelfLayout
output is at most that of the NaiveLayout output. -/
theorem shelf_width_le_naive_width (k : Nat) (regions : List Region)
    (h : ∀ r ∈ regions, 0 < r.width ∧ 0 < r.height ∧ r.height ≤ (2 : Int) ^ k) :
    get_advice (solve_v3 k regions) ≤ get_advice (solve_v1 k regions) := by
  have hw : ∀ r ∈ regions, 0 ≤ r.width := fun r hr => le_of_lt (h r hr).1
  have hwsort : ∀ r ∈ sortRegions regions, 0 ≤ r.width :=
    fun r hr => hw r ((sortRegions_perm regions).mem_iff.mp hr)
  have hsum_eq : sumWidths (sortRegions regions) = sumWidths regions := by
    simpa [sumWidths] using ((sortRegions_perm regions).map (fun r => r.width)).sum_eq
  have h3 : get_advice (solve_v3 k regions) ≤ sumWidths regions := by
    apply foldl_advStep_le _ 0 _ (sumWidths_nonneg regions hw)
    intro r hr
    have := v3Loop_width_le ((2 : Int) ^ k) (sortRegions regions) 0 0 0 hwsort
      (le_refl 0) r hr
    omega
  by_cases hne : regions = []
  · subst hne
    simp [solve_v1, solve_v3, sortRegions, v3Loop, placeV1, get_advice]
  · have h1 : sumWidths regions ≤ get_advice (solve_v1 k regions) := by
      obtain ⟨r, hr, hval⟩ := placeV1_attains_sum regions 0 hne
      have := foldl_advStep_ge_mem (placeV1 0 regions) 0 r hr
      simp only [solve_v1, get_advice]
      omega
    exact le_trans h3 h1

/-- Witness for C5 on a concrete three-region input at `k = 3`. -/
theorem shelf_width_le_naive_width_witness :
    get_advice (solve_v3 3 [⟨some "p", 2, 4, -1, -1⟩, ⟨some "q", 3, 4, -1, -1⟩,
        ⟨some "s", 1, 8, -1, -1⟩]) ≤
      get_advice (solve_v1 3 [⟨some "p", 2, 4, -1, -1⟩, ⟨some "q", 3, 4, -1, -1⟩,
        ⟨some "s", 1, 8, -1, -1⟩]) :=
  shelf_width_le_naive_width 3
    [⟨some "p", 2, 4, -1, -1⟩, ⟨some "q", 3, 4, -1, -1⟩, ⟨some "s", 1, 8, -1, -1⟩]
    (by decide)

/-! ## Claim C6: exact-fit regions start a new shelf (strict `<` policy) -/

/-- C6: the shelf test is strict: whenever `cursor.y + height = tableHeight`
(exact fill), the region is placed on a new shelf at `(cursor.x + shelfWidth,
0)`, never flush at the boundary; and concretely, with `tableHeight = 8` and
sorted regions `A(h=5)` then `B(h=3)`, A is placed at `(0, 0)` and B starts
a new shelf at `(widthOfA, 0)`, not at `y = 5`. -/
theorem exact_fit_starts_new_shelf :
    (∀ (n px py w : Int) (r : Region) (rest : List Region),
        py + r.height = n →
        v3Loop n px py w (r :: rest) =
          { r with x := px + w, y := 0 } :: v3Loop n (px + w) r.height r.width rest) ∧
    (∀ wA wB : Int, 0 < wA →
        solve_v3 3 [⟨some "A", wA, 5, -1, -1⟩, ⟨some "B", wB, 3, -1, -1⟩] =
          [⟨some "A", wA, 5, 0, 0⟩, ⟨some "B", wB, 3, wA, 0⟩]) := by
  constructor
  · intro n px py w r rest heq
    simp only [v3Loop, if_neg (show ¬ py + r.height < n by omega)]
  · intro wA wB hA
    have hsort : sortRegions [⟨some "A", wA, 5, -1, -1⟩, ⟨some "B", wB, 3, -1, -1⟩] =
        [⟨some "A", wA, 5, -1, -1⟩, ⟨some "B", wB, 3, -1, -1⟩] := by
      simp [sortRegions, insertByHeight]
    simp only [solve_v3, hsort]
    norm_num [v3Loop, hA]

/-- Witness for C6: the general boundary step at a concrete state, and the
concrete A/B scenario with `wA = 2`, `wB = 1`. -/
theorem exact_fit_starts_new_shelf_witness :
    v3Loop 8 0 5 2 [⟨some "X", 1, 3, -1, -1⟩] =
      [⟨some "X", 1, 3, 2, 0⟩] ∧
    solve_v3 3 [⟨some "A", 2, 5, -1, -1⟩, ⟨some "B", 1, 3, -1, -1⟩] =
      [⟨some "A", 2, 5, 0, 0⟩, ⟨some "B", 1, 3, 2, 0⟩] := by
  constructor
  · have h := exact_fit_starts_new_shelf.1 8 0 5 2 ⟨some "X", 1, 3, -1, -1⟩ []
      (by decide)
    simpa using h
  · exact exact_fit_starts_new_shelf.2 2 1 (by decide)

/-! ## Claim C8: the concrete k = 3 scenario -/

/-- C8: on the concrete catalog `A(w=2,h=3), B(w=2,h=3), C(w=1,h=2)` with
`tableHeight = 2^3 = 8`, ShelfLayout stacks A and B and opens a new shelf
for C, occupying width 3, while NaiveLayout lines all three up in a row,
occupying width 5. -/
theorem concrete_scenario_k3 :
    solve_v3 3 [⟨some "A", 2, 3, -1, -1⟩, ⟨some "B", 2, 3, -1, -1⟩,
        ⟨some "C", 1, 2, -1, -1⟩] =
      [⟨some "A", 2, 3, 0, 0⟩, ⟨some "B", 2, 3, 0, 3⟩, ⟨some "C", 1, 2, 2, 0⟩] ∧
    get_advice (solve_v3 3 [⟨some "A", 2, 3, -1, -1⟩, ⟨some "B", 2, 3, -1, -1⟩,
        ⟨some "C", 1, 2, -1, -1⟩]) = 3 ∧
    solve_v1 3 [⟨some "A", 2, 3, -1, -1⟩, ⟨some "B", 2, 3, -1, -1⟩,
        ⟨some "C", 1, 2, -1, -1⟩] =
      [⟨some "A", 2, 3, 0, 0⟩, ⟨some "B", 2, 3, 2, 0⟩, ⟨some "C", 1, 2, 4, 0⟩] ∧
    get_advice (solve_v1 3 [⟨some "A", 2, 3, -1, -1⟩, ⟨some "B", 2, 3, -1, -1⟩,
        ⟨some "C", 1, 2, -1, -1⟩]) = 5 := by
  decide

/-! ## Claim C3: what the validator actually reports -/

lemma findOverlapPair_eq_none_iff (l : List Region) :
    findOverlapPair l = none ↔ l.Pairwise (fun a b => a.overlap b = false) := by
  induction l with
  | nil => simp [findOverlapPair]
  | cons r rest ih =>
    simp only [findOverlapPair]
    cases hfind : rest.find? (fun s => r.overlap s) with
    | some s =>
      apply iff_of_false (by simp)
      rw [List.pairwise_cons]
      rintro ⟨hall, _⟩
      have h1 : r.overlap s = true := by simpa using List.find?_some hfind
      have h2 := hall s (List.mem_of_find?_eq_some hfind)
      rw [h1] at h2
      cases h2
    | none =>
      rw [List.pairwise_cons, ← ih]
      constructor
      · intro h
        refine ⟨?_, h⟩
        intro s hs
        simpa using List.find?_eq_none.mp hfind s hs
      · rintro ⟨_, hp⟩
        exact hp

/-- C3 (amended): the validator is a total reporting operation whose boolean
verdict is `true` exactly when every region meets the height bound and no
ordered pair trips the `overlap` test; its diagnostics are empty exactly
when the verdict is `true`, but it reports at most ONE diagnostic — the
first violation found — never an enumeration of all of them. -/
theorem check_valid_verdict_characterization (k : Nat) (regions : List Region) :
    ((checkValidDiag k regions).fst = true ↔
      ((∀ r ∈ regions, r.y + r.height ≤ (2 : Int) ^ k) ∧
        regions.Pairwise (fun a b => a.overlap b = false))) ∧
    ((checkValidDiag k regions).snd = [] ↔ (checkValidDiag k regions).fst = true) ∧
    (checkValidDiag k regions).snd.length ≤ 1 ∧
    check_valid k regions = (checkValidDiag k regions).fst := by
  unfold check_valid checkValidDiag
  cases hfind : regions.find? (fun r => decide (r.y + r.height > (2 : Int) ^ k)) with
  | some r =>
    have hmem := List.mem_of_find?_eq_some hfind
    have hr : r.y + r.height > (2 : Int) ^ k := by simpa using List.find?_some hfind
    refine ⟨?_, ?_, by simp, rfl⟩
    · apply iff_of_false (by simp)
      rintro ⟨hall, _⟩
      have := hall r hmem
      omega
    · apply iff_of_false <;> simp
  | none =>
    have hall : ∀ r ∈ regions, r.y + r.height ≤ (2 : Int) ^ k := by
      intro r hr
      have := List.find?_eq_none.mp hfind r hr
      simp only [decide_eq_true_eq] at this
      omega
    cases hov : findOverlapPair regions with
    | some p =>
      obtain ⟨a, b⟩ := p
      refine ⟨?_, ?_, by simp, rfl⟩
      · apply iff_of_false (by simp)
        rintro ⟨_, hp⟩
        rw [(findOverlapPair_eq_none_iff regions).mpr hp] at hov
        cases hov
      · apply iff_of_false <;> simp
    | none =>
      exact ⟨iff_of_true rfl ⟨hall, (findOverlapPair_eq_none_iff regions).mp hov⟩,
        by simp, by simp, rfl⟩

/-- C3 counterexample: with two regions both violating the height bound at
`k = 3`, the validator's diagnostics contain only the first violation; the
second violating region is absent even though it also breaks the bound. -/
theorem check_valid_reports_only_first_violation :
    checkValidDiag 3 [⟨some "a", 1, 9, 0, 0⟩, ⟨some "b", 1, 10, 0, 0⟩] =
      (false, [Diag.heightOver ⟨some "a", 1, 9, 0, 0⟩]) ∧
    (⟨some "b", 1, 10, 0, 0⟩ : Region).y + (⟨some "b", 1, 10, 0, 0⟩ : Region).height >
      (2 : Int) ^ 3 ∧
    (checkValidDiag 3 [⟨some "a", 1, 9, 0, 0⟩, ⟨some "b", 1, 10, 0, 0⟩]).snd.length = 1 := by
  decide

/-! ## Claim C4: the usage estimator -/

/-- C4 (amended): for the empty region set the estimator yields
`occupiedWidth = 0`, `area = 0`, `usedCells = 0` and the utilization ratio
as computed by the program is a division by zero (`none`), not `0` by
convention; for every non-empty placed region set (each `x ≥ 0`,
`width > 0`) `get_advice` is the maximum of `x + width` over the regions,
`cell_usage` returns `(occupiedWidth * 2^k, Σ width * height)`, and the
utilization ratio is `usedCells / area`. -/
theorem cell_usage_characterization :
    (get_advice ([] : List Region) = 0 ∧ ∀ k : Nat, utilization k [] = none) ∧
    (∀ (k : Nat) (regions : List Region), regions ≠ [] →
      (∀ r ∈ regions, 0 ≤ r.x ∧ 0 < r.width) →
      (∃ r ∈ regions, get_advice regions = r.x + r.width) ∧
      (∀ r ∈ regions, r.x + r.width ≤ get_advice regions) ∧
      cell_usage k regions =
        (get_advice regions * (2 : Int) ^ k,
          (regions.map (fun r => r.width * r.height)).sum) ∧
      utilization k regions =
        some ((((regions.map (fun r => r.width * r.height)).sum : Int) : ℚ) /
          ((get_advice regions * (2 : Int) ^ k : Int) : ℚ))) := by
  constructor
  · exact ⟨rfl, fun k => by simp [utilization, cell_usage, get_advice, pyDiv]⟩
  · intro k regions hne hpl
    have hattain : ∃ r ∈ regions, get_advice regions = r.x + r.width := by
      rcases foldl_advStep_attained regions 0 with h0 | hEx
      · obtain ⟨r0, hr0⟩ := List.exists_mem_of_ne_nil regions hne
        have hub := foldl_advStep_ge_mem regions 0 r0 hr0
        obtain ⟨hx0, hw0⟩ := hpl r0 hr0
        rw [h0] at hub
        omega
      · exact hEx
    have hpos : 0 < get_advice regions := by
      obtain ⟨r, hr, hval⟩ := hattain
      obtain ⟨hx, hwd⟩ := hpl r hr
      omega
    have hcells : cell_usage k regions =
        (get_advice regions * (2 : Int) ^ k,
          (regions.map (fun r => r.width * r.height)).sum) := by
      unfold cell_usage
      rw [foldl_cells regions 0]
      simp
    have harea : get_advice regions * (2 : Int) ^ k ≠ 0 := by
      have h2 : (0 : Int) < (2 : Int) ^ k := by positivity
      positivity
    refine ⟨hattain, fun r hr => foldl_advStep_ge_mem regions 0 r hr, hcells, ?_⟩
    unfold utilization
    rw [hcells]
    simp only [pyDiv, if_neg harea]

/-- C4 counterexample: on the empty region set the program's utilization
computation divides by zero (embedded as `none`); it is not `0`. -/
theorem utilization_empty_not_zero :
    utilization 3 ([] : List Region) ≠ some 0 ∧
    utilization 3 ([] : List Region) = none := by
  constructor <;> simp [utilization, cell_usage, get_advice, pyDiv]

/-- Witness for C4's amended theorem on a concrete placed two-region set. -/
theorem cell_usage_characterization_witness :
    (∃ r ∈ [(⟨some "u", 2, 3, 0, 0⟩ : Region), ⟨some "v", 1, 2, 2, 0⟩],
      get_advice [(⟨some "u", 2, 3, 0, 0⟩ : Region), ⟨some "v", 1, 2, 2, 0⟩] =
        r.x + r.width) ∧
    (∀ r ∈ [(⟨some "u", 2, 3, 0, 0⟩ : Region), ⟨some "v", 1, 2, 2, 0⟩],
      r.x + r.width ≤ get_advice [(⟨some "u", 2, 3, 0, 0⟩ : Region), ⟨some "v", 1, 2, 2, 0⟩]) ∧
    cell_usage 3 [(⟨some "u", 2, 3, 0, 0⟩ : Region), ⟨some "v", 1, 2, 2, 0⟩] =
      (get_advice [(⟨some "u", 2, 3, 0, 0⟩ : Region), ⟨some "v", 1, 2, 2, 0⟩] * (2 : Int) ^ 3,
        ([(⟨some "u", 2, 3, 0, 0⟩ : Region), ⟨some "v", 1, 2, 2, 0⟩].map
          (fun r => r.width * r.height)).sum) ∧
    utilization 3 [(⟨some "u", 2, 3, 0, 0⟩ : Region), ⟨some "v", 1, 2, 2, 0⟩] =
      some (((([(⟨some "u", 2, 3, 0, 0⟩ : Region), ⟨some "v", 1, 2, 2, 0⟩].map
          (fun r => r.width * r.height)).sum : Int) : ℚ) /
        ((get_advice [(⟨some "u", 2, 3, 0, 0⟩ : Region), ⟨some "v", 1, 2, 2, 0⟩] *
          (2 : Int) ^ 3 : Int) : ℚ)) :=
  cell_usage_characterization.2 3 [⟨some "u", 2, 3, 0, 0⟩, ⟨some "v", 1, 2, 2, 0⟩]
    (by decide) (by decide)

/-! ## Claims C9 and C10: the region catalog -/

/-- Full evaluation of the catalog builder: for any gas budget the loop
emits exactly the nine pairs whose name has a strictly positive ratio, in
`circuits_tables` insertion order, with width the sum of circuit and table
advice columns, row count `int(gas * ratio)` clamped upward by the
`min_rows` floor where one is defined (only `tx` among the nine), and the
circuit name as region name.  Pairs with an undefined ratio (`ecc`, `sig`)
and pairs with a zero ratio (`block`, `u8`, `u10`, `u16`) emit nothing. -/
lemma get_regions_eval (gas : ℚ) :
    get_regions gas =
      [ ⟨some "evm", 131, truncToInt (gas * mkRat 9 2), -1, -1⟩,
        ⟨some "bytecode", 12, truncToInt (gas * mkRat 947 100), -1, -1⟩,
        ⟨some "copy", 26, truncToInt (gas * mkRat 213 10), -1, -1⟩,
        ⟨some "exp", 15, truncToInt (gas * mkRat 109 100), -1, -1⟩,
        ⟨some "keccak", 203, truncToInt (gas * mkRat 181 2), -1, -1⟩,
        ⟨some "mpt", 156, truncToInt (gas * mkRat 19 20), -1, -1⟩,
        ⟨some "rw", 63, truncToInt (gas * mkRat 1133 100), -1, -1⟩,
        ⟨some "tx", 10, max (truncToInt (gas * mkRat 873 100)) 295188, -1, -1⟩,
        ⟨some "pi", 10, truncToInt (gas * mkRat 33 100), -1, -1⟩ ] := by
  rfl

/-- C9 counterexample: 13 of the 15 configured circuit/table pairs have a
defined rows-per-gas ratio, yet at gas budget 1000 the catalog emits only 9
regions — so it is not true that every pair with a defined ratio produces a
region (the zero-ratio pairs `block`, `u8`, `u10`, `u16` are also skipped). -/
theorem get_regions_skips_defined_zero_ratio_pairs :
    (circuits_tables.countP (fun p => ((p.1.or p.2).bind rows_per_gas).isSome)) = 13 ∧
    (get_regions 1000).length = 9 ∧
    (get_regions 1000).length ≠ 13 := by
  refine ⟨by decide, ?_, ?_⟩ <;> rw [get_regions_eval] <;> simp

/-- C9 (amended): a circuit/table pair whose name has an undefined OR zero
rows-per-unit ratio is silently skipped; every pair with a nonzero ratio
produces a region whose row count is `int(gas * ratio)` clamped upward to
the name's minimum-row floor when one is defined, whose width is the sum of
the circuit's and the paired table's advice-column counts (an absent
circuit or table contributing zero), in the insertion order of the source
configuration. -/
theorem get_regions_explicit_catalog (gas : ℚ) :
    get_regions gas =
      [ ⟨some "evm", 131, truncToInt (gas * mkRat 9 2), -1, -1⟩,
        ⟨some "bytecode", 12, truncToInt (gas * mkRat 947 100), -1, -1⟩,
        ⟨some "copy", 26, truncToInt (gas * mkRat 213 10), -1, -1⟩,
        ⟨some "exp", 15, truncToInt (gas * mkRat 109 100), -1, -1⟩,
        ⟨some "keccak", 203, truncToInt (gas * mkRat 181 2), -1, -1⟩,
        ⟨some "mpt", 156, truncToInt (gas * mkRat 19 20), -1, -1⟩,
        ⟨some "rw", 63, truncToInt (gas * mkRat 1133 100), -1, -1⟩,
        ⟨some "tx", 10, max (truncToInt (gas * mkRat 873 100)) 295188, -1, -1⟩,
        ⟨some "pi", 10, truncToInt (gas * mkRat 33 100), -1, -1⟩ ] :=
  get_regions_eval gas

/-- C10: for every gas budget, every region the catalog emits carries a
non-`None` circuit name whose rows-per-gas ratio is defined and strictly
positive — the zero-ratio names (`block`, `u8`, `u10`, `u16`) are skipped
exactly like the undefined ones, so their minimum-row floors are never
applied. -/
theorem get_regions_only_positive_ratio_regions (gas : ℚ) :
    ∀ r ∈ get_regions gas, ∃ c : String, r.name = some c ∧
      ∃ q : ℚ, rows_per_gas c = some q ∧ 0 < q := by
  rw [get_regions_eval]
  intro r hr
  simp only [List.mem_cons, List.not_mem_nil, or_false] at hr
  rcases hr with rfl | rfl | rfl | rfl | rfl | rfl | rfl | rfl | rfl
  · exact ⟨"evm", rfl, mkRat 9 2, rfl, by decide⟩
  · exact ⟨"bytecode", rfl, mkRat 947 100, rfl, by decide⟩
  · exact ⟨"copy", rfl, mkRat 213 10, rfl, by decide⟩
  · exact ⟨"exp", rfl, mkRat 109 100, rfl, by decide⟩
  · exact ⟨"keccak", rfl, mkRat 181 2, rfl, by decide⟩
  · exact ⟨"mpt", rfl, mkRat 19 20, rfl, by decide⟩
  · exact ⟨"rw", rfl, mkRat 1133 100, rfl, by decide⟩
  · exact ⟨"tx", rfl, mkRat 873 100, rfl, by decide⟩
  · exact ⟨"pi", rfl, mkRat 33 100, rfl, by decide⟩

/-- Witness for C10 at gas budget 1000 and the first emitted region. -/
theorem get_regions_only_positive_ratio_witness :
    ∃ c : String,
      (⟨some "evm", 131, truncToInt (1000 * mkRat 9 2), -1, -1⟩ : Region).name = some c ∧
      ∃ q : ℚ, rows_per_gas c = some q ∧ 0 < q :=
  get_regions_only_positive_ratio_regions 1000
    ⟨some "evm", 131, truncToInt (1000 * mkRat 9 2), -1, -1⟩
    (by rw [get_regions_eval]; exact List.mem_cons_self _ _)
